import Mathlib

/-
Verification of the dependency patch-application pipeline of cargo-patch
(src/main.rs). The pure core (`apply_patch`, the hunk-header normalizer,
`get_ids`, `clear_patch_folder`, `read_to_string`) is embedded directly;
the filesystem, the path canonicalizer and the external diff parser are
modelled as explicit parameters, and the `apply_patches` / `main` control
flow is embedded as explicit state passing over a write log.
-/

set_option maxRecDepth 8000

namespace CargoPatch

/-- Filesystem paths, modelled as lists of path components. Rust's
`Path::starts_with` compares whole components, which is `List.isPrefixOf`
on this representation. -/
abbrev FsPath := List String

/-- Model of `Path::starts_with` from `file_path.starts_with(&path)`. -/
def pathStartsWith (p base : FsPath) : Bool := base.isPrefixOf p

/-- Model of `PathBuf::join` for the relative old-file paths taken from a diff. -/
def pathJoin (p q : FsPath) : FsPath := p ++ q

/-- Model of the `{:?}` debug rendering of a `PathBuf` used in the
"Unable to find patch file" message. -/
def pathQuote (p : FsPath) : String := "\"" ++ String.intercalate "/" p ++ "\""

/-- Split a character list at every newline; like `String.splitOn "\n"`,
the result is never empty and a trailing newline yields a trailing `[]`. -/
def splitNLChars : List Char → List (List Char)
  | [] => [[]]
  | c :: rest =>
    if c = '\n' then [] :: splitNLChars rest
    else
      match splitNLChars rest with
      | [] => [[c]]
      | h :: t => (c :: h) :: t

/-- Join character lists with a newline between consecutive pieces;
this is `Vec::join("\n")` at character level. -/
def joinWithNL : List (List Char) → List Char
  | [] => []
  | [p] => p
  | p :: ps => p ++ '\n' :: joinWithNL ps

/-- Drop one trailing carriage return, as Rust's `str::lines` does on
newline-terminated lines. -/
def stripCR (l : List Char) : List Char := if l.getLast? = some '\r' then l.dropLast else l

/-- Model of Rust `str::lines` (used by `apply_patch` via `old.lines()`):
split at newlines, drop one carriage return from every newline-terminated
piece, keep a final unterminated piece verbatim, and produce no extra empty
line for a trailing newline. -/
def rustLines (s : String) : List String :=
  let parts := splitNLChars s.data
  (parts.dropLast.map fun l => ((⟨stripCR l⟩ : String))) ++
    (match parts.getLast? with
     | some [] => []
     | some l => [(⟨l⟩ : String)]
     | none => [])

/-- Model of `old.ends_with('\n')`. -/
def endsNL (s : String) : Bool := s.data.getLast? = some '\n'

/-- Model of `out.join("\n")`. -/
def joinNL (l : List String) : String := ⟨joinWithNL (l.map String.data)⟩

/-- Number of lines of a string in the `str::lines` sense. -/
def numLinesStr (s : String) : Nat := (rustLines s).length

/-- Line range of a hunk (`patch::Range`, `u64` fields modelled as `Nat`). -/
structure HRange where
  start : Nat
  count : Nat
deriving DecidableEq

/-- One line event of a hunk (`patch::Line`). -/
inductive PLine where
  | context (s : String)
  | add (s : String)
  | remove (s : String)
deriving DecidableEq

/-- One hunk of a parsed diff (`patch::Hunk`). -/
structure Hunk where
  old_range : HRange
  new_range : HRange
  lines : List PLine
deriving DecidableEq

/-- One per-file parsed diff (`patch::Patch`): the declared old-file path
plus the ordered hunks. -/
structure FileDiff where
  old_path : FsPath
  hunks : List Hunk
deriving DecidableEq

/-- Step function of the copy-through loop, structurally recursive on the
number `target - c` of remaining iterations. -/
def copyThroughFuel (ls : List String) : Nat → List String → Nat → Option (List String × Nat)
  | 0, out, c => some (out, c)
  | fuel + 1, out, c =>
    match ls[c]? with
    | some l => copyThroughFuel ls fuel (out ++ [l]) (c + 1)
    | none => none

/-- The copy-through loop of `apply_patch`:
`while old_line < hunk.old_range.start - 1 { out.push(old_lines[old_line]); old_line += 1 }`.
The loop runs exactly `target - c` times; `none` models the panic of the
unchecked indexing `old_lines[old_line]` when the cursor runs past the end
of the line vector. -/
def copyThrough (ls out : List String) (c target : Nat) : Option (List String × Nat) :=
  copyThroughFuel ls (target - c) out c

/-- The hunk-body loop of `apply_patch`: a `Context` line appends the
original line at the cursor only when the cursor is in bounds and always
advances, an `Add` appends its text without advancing, a `Remove` only
advances. -/
def applyLines (ls : List String) : List PLine → List String → Nat → List String × Nat
  | [], out, c => (out, c)
  | .context _ :: rest, out, c =>
    applyLines ls rest (if c < ls.length then out ++ [ls.getD c ""] else out) (c + 1)
  | .add s :: rest, out, c => applyLines ls rest (out ++ [s]) c
  | .remove _ :: rest, out, c => applyLines ls rest out (c + 1)

/-- Process one hunk: copy through to the declared (1-based) start, then
replay the body. `old_range.start = 0` makes `start - 1` underflow the
`u64` cursor comparison; in a debug build the subtraction panics and in a
release build the wrapped bound makes the copy loop overrun the line
vector, so either way no string is produced, modelled as `none`. -/
def applyHunk (ls : List String) (st : List String × Nat) (h : Hunk) : Option (List String × Nat) :=
  if h.old_range.start = 0 then none
  else
    match copyThrough ls st.1 st.2 (h.old_range.start - 1) with
    | none => none
    | some (out, c) => some (applyLines ls h.lines out c)

/-- Fold `applyHunk` over the hunks of a diff. -/
def applyHunks (ls : List String) : List Hunk → List String × Nat → Option (List String × Nat)
  | [], st => some st
  | h :: rest, st =>
    match applyHunk ls st h with
    | none => none
    | some st' => applyHunks ls rest st'

/-- The emitted segment list of `apply_patch` before joining: the hunks are
replayed and then `old_lines.get(old_line..).unwrap_or(&[])` is appended. -/
def patchSegs (hunks : List Hunk) (old : String) : Option (List String) :=
  (applyHunks (rustLines old) hunks ([], 0)).map fun st => st.1 ++ (rustLines old).drop st.2

/-- Model of `fn apply_patch(diff: Patch<'_>, old: &str) -> String`: replay
the hunks positionally over `old.lines()`, append the remaining lines, push
one empty segment when the original ended with a newline, and join with
newlines. `none` models a panic of the unchecked indexing / `u64`
underflow (the Rust function aborts the process instead of returning). -/
def apply_patch (diff : FileDiff) (old : String) : Option String :=
  (patchSegs diff.hunks old).map fun segs =>
    joinNL (if endsNL old then segs ++ [""] else segs)

/-- The literal hunk-header pattern from the source:
`(?m)^(?P<rangeBegin>@@ -[0-9]+,[0-9]+ \+[0-9]+)(?P<rangeEnd>,[0-9]+)? @@.*\n`.
`normalizeLineChars` below is its per-line model. -/
def RANGE_REGEX : String :=
  "(?m)^(?P<rangeBegin>@@ -[0-9]+,[0-9]+ \\+[0-9]+)(?P<rangeEnd>,[0-9]+)? @@.*\\n"

/-- The literal replacement template from the source. -/
def RANGE_REPLACE : String := "$rangeBegin$rangeEnd @@\n"

/-- Maximal-munch split of a leading digit run, as `[0-9]+` matches. -/
def takeDigits (cs : List Char) : List Char × List Char :=
  (cs.takeWhile Char.isDigit, cs.dropWhile Char.isDigit)

/-- Per-line model of one `RANGE_REGEX` match: a line of the shape
`@@ -<digits>,<digits> +<digits>[,<digits>] @@<anything>` yields the bare
header (everything after the closing `@@` dropped), any other line yields
`none`. The regex is deterministic here because shortening a maximal digit
run or skipping the optional `,<digits>` group can never make the required
following literal match. -/
def parseHeaderCore (cs : List Char) : Option (List Char) :=
  match cs with
  | '@' :: '@' :: ' ' :: '-' :: r0 =>
    let (d1, r1) := takeDigits r0
    if d1 = [] then none else
    match r1 with
    | ',' :: r2 =>
      let (d2, r3) := takeDigits r2
      if d2 = [] then none else
      match r3 with
      | ' ' :: '+' :: r4 =>
        let (d3, r5) := takeDigits r4
        if d3 = [] then none else
        (match r5 with
         | ',' :: r6 =>
           let (d4, r7) := takeDigits r6
           if d4 = [] then none else
           (match r7 with
            | ' ' :: '@' :: '@' :: _ =>
              some ('@' :: '@' :: ' ' :: '-' :: d1 ++ ',' :: d2 ++ ' ' :: '+' :: d3 ++
                ',' :: d4 ++ [' ', '@', '@'])
            | _ => none)
         | ' ' :: '@' :: '@' :: _ =>
           some ('@' :: '@' :: ' ' :: '-' :: d1 ++ ',' :: d2 ++ ' ' :: '+' :: d3 ++
             [' ', '@', '@'])
         | _ => none)
      | _ => none
    | _ => none
  | _ => none

/-- Rewrite one line: strip the trailing text of a hunk header, keep any
other line unchanged. -/
def normalizeLineChars (cs : List Char) : List Char :=
  (parseHeaderCore cs).getD cs

/-- Apply the header rewrite to every newline-terminated line of the split
text; the final piece has no terminating newline, so `RANGE_REGEX` (whose
match ends in `\n`) can never rewrite it. -/
def normalizeParts : List (List Char) → List (List Char)
  | [] => []
  | [last] => [last]
  | l :: rest => normalizeLineChars l :: normalizeParts rest

/-- Model of `regex.replace_all(&data, RANGE_REPLACE)` over the whole patch
text: in multiline mode each match spans exactly one newline-terminated
line anchored at its start, so replace-all acts independently per line. -/
def normalizeText (s : String) : String :=
  ⟨joinWithNL (normalizeParts (splitNLChars s.data))⟩

/-- Abstract `std::io::ErrorKind`: `NotFound` is distinguished by the code,
every other kind is opaque. -/
inductive ErrKind where
  | notFound
  | permissionDenied
  | other (code : Nat)
deriving DecidableEq

/-- Outcome of one raw `fs::read_to_string` call on the underlying filesystem. -/
inductive ReadResult where
  | ok (s : String)
  | err (k : ErrKind)
deriving DecidableEq

/-- Errors surfaced by the pipeline: `msg` models `failure::err_msg(...)`
(carrying the exact message string), `ioErr` models an `io::Error`
propagated unchanged via `?`, and `panicked` models a process abort from
the unchecked indexing inside `apply_patch`. -/
inductive PErr where
  | msg (s : String)
  | ioErr (k : ErrKind)
  | panicked
deriving DecidableEq

/-- Model of `fn read_to_string(path: &Path) -> Result<String>`: a
`NotFound` failure is replaced by the distinguishable "Unable to find patch
file with path: ..." message, any other failure propagates unchanged. -/
def read_to_string (read : FsPath → ReadResult) (path : FsPath) : Except PErr String :=
  match read path with
  | .ok data => .ok data
  | .err .notFound => .error (.msg ("Unable to find patch file with path: " ++ pathQuote path))
  | .err k => .error (.ioErr k)

/-- Outcome of the raw `fs::remove_dir_all("target/patch")` call. -/
inductive RemoveResult where
  | ok
  | err (k : ErrKind)
deriving DecidableEq

/-- Model of `fn clear_patch_folder() -> Result<()>`: success and the
`NotFound` failure both return `Ok`, any other failure is returned. -/
def clear_patch_folder (rm : RemoveResult) : Except PErr Unit :=
  match rm with
  | .ok => .ok ()
  | .err .notFound => .ok ()
  | .err k => .error (.ioErr k)

/-- External collaborators of `apply_patches`: the base filesystem, the
path canonicalizer (`fs::canonicalize`, whose behavior depends on the
on-disk directory tree, so it is an abstract parameter), and the external
diff parser `Patch::from_multiple` (`none` models a parse error). -/
structure Env where
  read : FsPath → ReadResult
  canonicalize : FsPath → Except ErrKind FsPath
  parseMulti : String → Option (List FileDiff)

/-- Reads during a run see the base filesystem overlaid with the writes the
run has already performed (`fs::write` goes to the same disk later reads
come from). -/
def overlayRead (env : Env) (writes : List (FsPath × String)) (p : FsPath) : ReadResult :=
  match (writes.reverse.find? fun w => w.1 = p) with
  | some w => .ok w.2
  | none => env.read p

/-- The inner loop of `apply_patches` over the per-file diffs of one patch
file: join the staged root with the declared old-file path, canonicalize,
enforce the containment check, then read, patch and write the target.  The
accumulator is the write log; `println!("Patched {}", name)` is I/O the
claims do not mention and is not modelled. -/
def processDiffs (env : Env) (root : FsPath) :
    List FileDiff → List (FsPath × String) → List (FsPath × String) × Except PErr Unit
  | [], acc => (acc, .ok ())
  | d :: rest, acc =>
    match env.canonicalize (pathJoin root d.old_path) with
    | .error k => (acc, .error (.ioErr k))
    | .ok file_path =>
      if pathStartsWith file_path root then
        match read_to_string (overlayRead env acc) file_path with
        | .error e => (acc, .error e)
        | .ok data =>
          match apply_patch d data with
          | none => (acc, .error .panicked)
          | some newData => processDiffs env root rest (acc ++ [(file_path, newData)])
      else
        (acc, .error (.msg "Patch file tried to escape dependency folder"))

/-- The outer loop of `apply_patches` over the declared patch files: read
the patch file, normalize its hunk headers, parse it, then process its
per-file diffs. -/
def processPatches (env : Env) (root : FsPath) :
    List FsPath → List (FsPath × String) → List (FsPath × String) × Except PErr Unit
  | [], acc => (acc, .ok ())
  | p :: rest, acc =>
    match read_to_string (overlayRead env acc) p with
    | .error e => (acc, .error e)
    | .ok data =>
      match env.parseMulti (normalizeText data) with
      | none => (acc, .error (.msg "Unable to parse patch file"))
      | some ds =>
        match processDiffs env root ds acc with
        | (acc', .ok ()) => processPatches env root rest acc'
        | (acc', .error e) => (acc', .error e)

/-- Model of `fn apply_patches(name, patches, path) -> Result<()>`. The
extra `fsWrites` argument is the ambient overlay of files this run already
wrote (the Rust function reads and writes the real filesystem); the result
is the final write log together with the outcome. -/
def apply_patches (env : Env) (_name : String) (patches : List FsPath) (path : FsPath)
    (fsWrites : List (FsPath × String)) : List (FsPath × String) × Except PErr Unit :=
  processPatches env path patches fsWrites

/-- One declared patch directive (`struct PatchEntry`); the semver version
requirement is modelled as an opaque decidable predicate on the opaque
version type (`Nat`). -/
structure PatchEntry where
  name : String
  version : Option (Nat → Bool)
  patches : List FsPath

/-- One resolved dependency identity (`PackageId`): a name and a concrete
version. -/
structure Dep where
  name : String
  version : Nat
deriving DecidableEq

/-- The match test of `get_ids`:
`dep.name().as_str() == patch_entry.name && patch_entry.version.map_or(true, |ver| ver.matches(dep.version()))`. -/
def matchesB (e : PatchEntry) (d : Dep) : Bool :=
  d.name == e.name && (match e.version with | none => true | some req => req d.version)

/-- Diagnostic printed for each extra matching candidate. -/
def multiMsg (name : String) : String :=
  "There are multiple versions of " ++ name ++ " available. Try specifying a version."

/-- Diagnostic printed when no candidate matches. -/
def absentMsg (name : String) : String :=
  "Unable to find package " ++ name ++ " in dependencies"

/-- The candidate scan of `get_ids` for one directive: the first match is
kept, every further match only appends the ambiguity diagnostic. -/
def matchLoop (e : PatchEntry) :
    List Dep → Option Dep → List String → Option Dep × List String
  | [], m, msgs => (m, msgs)
  | d :: rest, m, msgs =>
    if matchesB e d then
      match m with
      | none => matchLoop e rest (some d) msgs
      | some m' => matchLoop e rest (some m') (msgs ++ [multiMsg e.name])
    else
      matchLoop e rest m msgs

/-- Model of `fn get_ids(patches, resolve) -> Vec<(PatchEntry, PackageId)>`,
additionally returning the diagnostics printed to stderr in order. -/
def get_ids (patches : List PatchEntry) (resolve : List Dep) :
    List (PatchEntry × Dep) × List String :=
  match patches with
  | [] => ([], [])
  | e :: rest =>
    let (m, msgs) := matchLoop e resolve none []
    let msgs := if m.isNone then msgs ++ [absentMsg e.name] else msgs
    let (prs, msgs2) := get_ids rest resolve
    ((match m with | some d => [(e, d)] | none => []) ++ prs, msgs ++ msgs2)

/-- External collaborators of `main`: the `apply_patches` environment, the
stager `copy_package` (recursive copy plus canonicalize, abstracted), and
the `pkg_set.get_one(id)` source-root lookup. -/
structure MainEnv where
  env : Env
  copyPackage : Dep → Except PErr FsPath

/-- Observable outcome accumulated by one run: the write log, the staged
package roots in staging order, the stderr diagnostics, and the `patched`
flag of `main`. -/
structure RunOut where
  writes : List (FsPath × String)
  staged : List FsPath
  diags : List String
  patched : Bool
deriving DecidableEq

/-- The loop of `main` over the matched (directive, dependency) pairs of
one workspace member: stage the package, set `patched`, apply its patch
files; any staging or patching failure aborts. -/
def runPairs (menv : MainEnv) :
    List (PatchEntry × Dep) → RunOut → RunOut × Except PErr Unit
  | [], o => (o, .ok ())
  | (e, d) :: rest, o =>
    match menv.copyPackage d with
    | .error err => (o, .error err)
    | .ok path =>
      let o1 : RunOut :=
        { o with staged := o.staged ++ [path], patched := true }
      match apply_patches menv.env e.name e.patches path o1.writes with
      | (w, .ok ()) => runPairs menv rest { o1 with writes := w }
      | (w, .error err) => ({ o1 with writes := w }, .error err)

/-- The loop of `main` over the workspace members: match the member's
directives against the resolved dependencies, record the diagnostics, then
process the matched pairs. -/
def processMembers (menv : MainEnv) (deps : List Dep) :
    List (List PatchEntry) → RunOut → RunOut × Except PErr Unit
  | [], o => (o, .ok ())
  | m :: rest, o =>
    let (ids, msgs) := get_ids m deps
    match runPairs menv ids { o with diags := o.diags ++ msgs } with
    | (o', .ok ()) => processMembers menv deps rest o'
    | (o', .error e) => (o', .error e)

/-- Model of `fn main() -> Result<()>`: reset the staging root, process
every member, and print "No patches found" when nothing was patched. The
workspace resolution itself is external; each member is represented by its
already-parsed directive list, and the resolved set by `deps`.  The middle
component of the result is the stdout notice list. -/
def runMain (menv : MainEnv) (rm : RemoveResult) (members : List (List PatchEntry))
    (deps : List Dep) : RunOut × List String × Except PErr Unit :=
  match clear_patch_folder rm with
  | .error e => (⟨[], [], [], false⟩, [], .error e)
  | .ok () =>
    match processMembers menv deps members ⟨[], [], [], false⟩ with
    | (o, .error e) => (o, [], .error e)
    | (o, .ok ()) => (o, if o.patched then [] else ["No patches found"], .ok ())

/-- Erase the text payload of every `Context` and `Remove` event (the
payloads `apply_patch` never inspects), keeping `Add` payloads. -/
def erasePayload : PLine → PLine
  | .context _ => .context ""
  | .add s => .add s
  | .remove _ => .remove ""

/-- Erase the `Context`/`Remove` payloads of a hunk. -/
def eraseHunk (h : Hunk) : Hunk :=
  ⟨h.old_range, h.new_range, h.lines.map erasePayload⟩

/-- Whether a line event consumes one line of the original. -/
def isOldLine : PLine → Bool
  | .context _ => true
  | .remove _ => true
  | .add _ => false

/-- Number of original lines a hunk body consumes. -/
def hunkOldLen (h : Hunk) : Nat := (h.lines.filter isOldLine).length

/-- Total number of `Remove` events of a hunk list. -/
def totalRemoved (hs : List Hunk) : Nat :=
  (hs.map fun h =>
    (h.lines.filter fun l => match l with | .remove _ => true | _ => false).length).sum

/-- Total number of `Add` events of a hunk list. -/
def totalAdded (hs : List Hunk) : Nat :=
  (hs.map fun h =>
    (h.lines.filter fun l => match l with | .add _ => true | _ => false).length).sum

/-- The added texts of a hunk list, in order. -/
def addTexts (hs : List Hunk) : List String :=
  (hs.map fun h =>
    h.lines.filterMap fun l => match l with | .add s => some s | _ => none).flatten

/-- A hunk body keeps the cursor inside the original: every `Context` and
`Remove` event happens at a cursor strictly below `len`. -/
def linesFit (len : Nat) : Nat → List PLine → Bool
  | _, [] => true
  | c, .context _ :: rest => decide (c < len) && linesFit len (c + 1) rest
  | c, .add _ :: rest => linesFit len c rest
  | c, .remove _ :: rest => decide (c < len) && linesFit len (c + 1) rest

/-- The hunks lie in order within an original of `len` lines, starting from
cursor `c`: each declared start is 1-based, not before the cursor left by
the previous hunk, within the file, and the body stays in bounds. -/
def hunksInRange (len : Nat) : Nat → List Hunk → Bool
  | _, [] => true
  | c, h :: rest =>
    decide (1 ≤ h.old_range.start) && decide (c ≤ h.old_range.start - 1) &&
    decide (h.old_range.start - 1 ≤ len) &&
    linesFit len (h.old_range.start - 1) h.lines &&
    hunksInRange len (h.old_range.start - 1 + hunkOldLen h) rest

/-- Concrete environment used to instantiate theorems on closed inputs:
every read yields "x", canonicalization collapses every path to the root
path `[]` (so any staged-root prefix check fails), and the parser always
yields one diff targeting "esc". -/
def cexEnv : Env :=
  ⟨fun _ => .ok "x", fun _ => .ok [], fun _ => some [⟨["esc"], []⟩]⟩

/-! Theorems. -/

/-- Sanity check mirroring the spec's concrete scenario 1: a single hunk
replacing "This is the second line" by "This is the patched line". -/
theorem apply_patch_scenario_one :
    apply_patch ⟨[], [⟨⟨1, 6⟩, ⟨1, 6⟩,
      [.context "This is the first line", .context "",
       .remove "This is the second line", .add "This is the patched line",
       .context "", .context "This is the third line", .context ""]⟩]⟩
      "This is the first line\n\nThis is the second line\n\nThis is the third line\n"
      = some "This is the first line\n\nThis is the patched line\n\nThis is the third line\n" := by
  decide

theorem applyLines_erase (ls : List String) (lines : List PLine) :
    ∀ out c, applyLines ls (lines.map erasePayload) out c = applyLines ls lines out c := by
  induction lines with
  | nil => intro out c; rfl
  | cons l rest ih =>
    intro out c
    cases l with
    | context s => simp [erasePayload, applyLines, ih]
    | add s => simp [erasePayload, applyLines, ih]
    | remove s => simp [erasePayload, applyLines, ih]

theorem applyHunks_erase (ls : List String) (hs : List Hunk) :
    ∀ st, applyHunks ls (hs.map eraseHunk) st = applyHunks ls hs st := by
  induction hs with
  | nil => intro st; rfl
  | cons h rest ih =>
    intro st
    simp only [List.map_cons, applyHunks, applyHunk, eraseHunk]
    cases hz : decide (h.old_range.start = 0) with
    | true => simp_all
    | false =>
      simp only [decide_eq_false_iff_not] at hz
      simp only [if_neg hz]
      cases hc : copyThrough ls st.1 st.2 (h.old_range.start - 1) with
      | none => rfl
      | some st' => simp [applyLines_erase, ih]

/-- Claim C3: `apply_patch` is a pure positional replay.  It never inspects
the text of `Context` or `Remove` events (erasing those payloads does not
change the result), and on the original `"test1\ntest2\ntest3\n"` the hunk
with declared old start 1 and body Context "test5" / Remove "test2" /
Add "test4" / Context "test3" yields exactly `"test1\ntest4\ntest3\n"`,
even though the first context text does not match the file. -/
theorem c3_positional_replay :
    (∀ (p : FsPath) (hs : List Hunk) (old : String),
      apply_patch ⟨p, hs.map eraseHunk⟩ old = apply_patch ⟨p, hs⟩ old)
    ∧ apply_patch ⟨[], [⟨⟨1, 3⟩, ⟨1, 3⟩,
        [.context "test5", .remove "test2", .add "test4", .context "test3"]⟩]⟩
        "test1\ntest2\ntest3\n" = some "test1\ntest4\ntest3\n" := by
  constructor
  · intro p hs old
    simp [apply_patch, patchSegs, applyHunks_erase]
  · decide

/-- Claim C9: clearing the staging root succeeds both when the root exists
and when it is absent (`NotFound` is mapped to `Ok`), any other removal
failure is returned as an error, and the whole pipeline behaves identically
whether a prior staging root existed or not. -/
theorem c9_idempotent_reset :
    clear_patch_folder .ok = .ok ()
    ∧ clear_patch_folder (.err .notFound) = .ok ()
    ∧ (∀ k, k ≠ ErrKind.notFound → clear_patch_folder (.err k) = .error (.ioErr k))
    ∧ (∀ (menv : MainEnv) (members : List (List PatchEntry)) (deps : List Dep),
        runMain menv .ok members deps = runMain menv (.err .notFound) members deps) := by
  refine ⟨rfl, rfl, ?_, ?_⟩
  · intro k hk
    cases k with
    | notFound => exact absurd rfl hk
    | permissionDenied => rfl
    | other code => rfl
  · intro menv members deps
    rfl

theorem c9_idempotent_reset_witness :
    ErrKind.permissionDenied ≠ ErrKind.notFound
    ∧ clear_patch_folder (.err .permissionDenied) = .error (.ioErr .permissionDenied) := by
  exact ⟨by decide, c9_idempotent_reset.2.2.1 ErrKind.permissionDenied (by decide)⟩

/-- Claim C8: reading an absent patch file fails with the distinguishable
"Unable to find patch file with path: ..." message rather than the raw I/O
error, any other read failure propagates the underlying I/O error
unchanged, and either failure on a declared patch file aborts
`apply_patches` immediately. -/
theorem c8_read_errors :
    (∀ (read : FsPath → ReadResult) (p : FsPath), read p = .err .notFound →
      read_to_string read p =
        .error (.msg ("Unable to find patch file with path: " ++ pathQuote p)))
    ∧ (∀ (read : FsPath → ReadResult) (p : FsPath) (k : ErrKind), read p = .err k →
        k ≠ ErrKind.notFound → read_to_string read p = .error (.ioErr k))
    ∧ (∀ (env : Env) (name : String) (p : FsPath) (ps : List FsPath) (root : FsPath)
        (acc : List (FsPath × String)) (e : PErr),
        read_to_string (overlayRead env acc) p = .error e →
        apply_patches env name (p :: ps) root acc = (acc, .error e)) := by
  refine ⟨?_, ?_, ?_⟩
  · intro read p h
    simp [read_to_string, h]
  · intro read p k h hk
    cases k with
    | notFound => exact absurd rfl hk
    | permissionDenied => simp [read_to_string, h]
    | other code => simp [read_to_string, h]
  · intro env name p ps root acc e h
    simp [apply_patches, processPatches, h]

theorem c8_read_errors_witness :
    ((fun _ : FsPath => ReadResult.err .notFound) ["x"] = .err .notFound
      ∧ read_to_string (fun _ => ReadResult.err .notFound) ["x"] =
          .error (.msg ("Unable to find patch file with path: " ++ pathQuote ["x"])))
    ∧ ((fun _ : FsPath => ReadResult.err (.other 3)) ["x"] = .err (.other 3)
      ∧ ErrKind.other 3 ≠ ErrKind.notFound
      ∧ read_to_string (fun _ => ReadResult.err (.other 3)) ["x"] = .error (.ioErr (.other 3)))
    ∧ (read_to_string
          (overlayRead ⟨fun _ => ReadResult.err .notFound, fun p => .ok p, fun _ => some []⟩ [])
          ["pf"] = .error (.msg ("Unable to find patch file with path: " ++ pathQuote ["pf"]))
      ∧ apply_patches ⟨fun _ => ReadResult.err .notFound, fun p => .ok p, fun _ => some []⟩
          "n" [["pf"]] ["r"] [] =
          ([], .error (.msg ("Unable to find patch file with path: " ++ pathQuote ["pf"])))) := by
  refine ⟨⟨rfl, c8_read_errors.1 _ _ rfl⟩,
    ⟨rfl, by decide, c8_read_errors.2.1 _ _ (.other 3) rfl (by decide)⟩,
    ⟨rfl, c8_read_errors.2.2 _ "n" ["pf"] [] ["r"] [] _ rfl⟩⟩

theorem matchLoop_some (e : PatchEntry) (d : Dep) :
    ∀ (deps : List Dep) (msgs : List String),
      matchLoop e deps (some d) msgs =
        (some d, msgs ++ List.replicate (deps.filter fun x => matchesB e x).length (multiMsg e.name)) := by
  intro deps
  induction deps with
  | nil => intro msgs; simp [matchLoop]
  | cons d0 rest ih =>
    intro msgs
    by_cases h : matchesB e d0
    · simp [matchLoop, h, ih, List.replicate_succ]
    · simp [matchLoop, h, ih]

theorem matchLoop_none (e : PatchEntry) :
    ∀ (deps : List Dep) (msgs : List String),
      matchLoop e deps none msgs =
        ((deps.filter fun x => matchesB e x).head?,
          msgs ++ List.replicate ((deps.filter fun x => matchesB e x).length - 1) (multiMsg e.name)) := by
  intro deps
  induction deps with
  | nil => intro msgs; simp [matchLoop]
  | cons d0 rest ih =>
    intro msgs
    by_cases h : matchesB e d0
    · simp [matchLoop, h, matchLoop_some]
    · simp [matchLoop, h, ih]

/-- Counterexample to claim C2 as stated: with two resolved dependencies
both named "a" and a directive without a version constraint, `get_ids`
emits the ambiguity diagnostic but still pairs the directive with the
first-seen candidate instead of dropping it. -/
theorem c2_ambiguity_counterexample :
    get_ids [⟨"a", none, [["p"]]⟩] [⟨"a", 1⟩, ⟨"a", 2⟩] =
      ([(⟨"a", none, [["p"]]⟩, ⟨"a", 1⟩)], [multiMsg "a"]) := by
  rfl

/-- Claim C2, amended: when more than one resolved dependency matches a
directive, `get_ids` emits the ambiguity diagnostic once per extra
candidate but keeps the directive, pairing it with the first-seen matching
candidate; the run continues with the remaining directives. -/
theorem c2_ambiguous_keeps_first (e : PatchEntry) (deps : List Dep) (rest : List PatchEntry)
    (h : 2 ≤ (deps.filter fun x => matchesB e x).length) :
    ∃ d, (deps.filter fun x => matchesB e x).head? = some d ∧
      get_ids (e :: rest) deps =
        ((e, d) :: (get_ids rest deps).1,
          List.replicate ((deps.filter fun x => matchesB e x).length - 1) (multiMsg e.name)
            ++ (get_ids rest deps).2) := by
  rcases hf : deps.filter fun x => matchesB e x with _ | ⟨d, tl⟩
  · rw [hf] at h; simp at h
  · refine ⟨d, rfl, ?_⟩
    rcases hg : get_ids rest deps with ⟨prs, msgs2⟩
    simp [get_ids, matchLoop_none, hf, hg]

theorem c2_ambiguous_keeps_first_witness :
    2 ≤ (([⟨"a", 1⟩, ⟨"a", 2⟩] : List Dep).filter fun x => matchesB ⟨"a", none, [["p"]]⟩ x).length
    ∧ ∃ d, (([⟨"a", 1⟩, ⟨"a", 2⟩] : List Dep).filter
          fun x => matchesB ⟨"a", none, [["p"]]⟩ x).head? = some d ∧
        get_ids [⟨"a", none, [["p"]]⟩] [⟨"a", 1⟩, ⟨"a", 2⟩] =
          ((⟨"a", none, [["p"]]⟩, d) :: (get_ids [] [⟨"a", 1⟩, ⟨"a", 2⟩]).1,
            List.replicate
                ((([⟨"a", 1⟩, ⟨"a", 2⟩] : List Dep).filter
                  fun x => matchesB ⟨"a", none, [["p"]]⟩ x).length - 1)
                (multiMsg "a")
              ++ (get_ids [] [⟨"a", 1⟩, ⟨"a", 2⟩]).2) := by
  exact ⟨by decide, c2_ambiguous_keeps_first ⟨"a", none, [["p"]]⟩ [⟨"a", 1⟩, ⟨"a", 2⟩] [] (by decide)⟩

theorem processMembers_no_ids (menv : MainEnv) (deps : List Dep) :
    ∀ (members : List (List PatchEntry)) (o : RunOut),
      (∀ m ∈ members, (get_ids m deps).1 = []) →
      processMembers menv deps members o =
        ({ o with diags := o.diags ++ (members.map fun m => (get_ids m deps).2).flatten },
          .ok ()) := by
  intro members
  induction members with
  | nil => intro o h; simp [processMembers]
  | cons m rest ih =>
    intro o h
    rcases hg : get_ids m deps with ⟨ids, msgs⟩
    have hid : ids = [] := by
      have := h m (by simp)
      rw [hg] at this
      exact this
    subst hid
    simp only [processMembers, hg, runPairs]
    rw [ih _ (fun x hx => h x (by simp [hx]))]
    simp [hg, List.append_assoc]

/-- Claim C7: a run in which no directive is matched for any workspace
member terminates successfully, stages nothing, writes nothing, prints the
"No patches found" notice, and reports exactly the per-member matcher
diagnostics. -/
theorem c7_no_patches_found (menv : MainEnv) (rm : RemoveResult)
    (members : List (List PatchEntry)) (deps : List Dep)
    (h1 : clear_patch_folder rm = .ok ())
    (h2 : ∀ m ∈ members, (get_ids m deps).1 = []) :
    runMain menv rm members deps =
      (⟨[], [], (members.map fun m => (get_ids m deps).2).flatten, false⟩,
        ["No patches found"], .ok ()) := by
  simp only [runMain, h1]
  rw [processMembers_no_ids menv deps members ⟨[], [], [], false⟩ h2]
  simp

/-- Concrete instance: one member with a single directive naming a
dependency absent from the resolved set yields exactly the absence
diagnostic, changes nothing, prints the notice, and exits successfully. -/
theorem c7_no_patches_found_witness :
    clear_patch_folder .ok = .ok ()
    ∧ (∀ m ∈ [[(⟨"zzz", none, []⟩ : PatchEntry)]],
        (get_ids m [(⟨"a", 1⟩ : Dep)]).1 = [])
    ∧ runMain ⟨⟨fun _ => .ok "", fun p => .ok p, fun _ => some []⟩, fun _ => .ok []⟩
        .ok [[⟨"zzz", none, []⟩]] [⟨"a", 1⟩] =
        (⟨[], [], [absentMsg "zzz"], false⟩, ["No patches found"], .ok ()) := by
  refine ⟨rfl, ?_, ?_⟩
  · intro m hm
    simp only [List.mem_singleton] at hm
    subst hm
    rfl
  · exact c7_no_patches_found _ .ok _ _ rfl
      (by intro m hm; simp only [List.mem_singleton] at hm; subst hm; rfl)

theorem processDiffs_ok_append (env : Env) (root : FsPath) :
    ∀ (ds1 rest : List FileDiff) (acc W : List (FsPath × String)),
      processDiffs env root ds1 acc = (W, .ok ()) →
      processDiffs env root (ds1 ++ rest) acc = processDiffs env root rest W := by
  intro ds1
  induction ds1 with
  | nil =>
    intro rest acc W h
    simp only [processDiffs, Prod.mk.injEq] at h
    rw [List.nil_append, h.1]
  | cons d tl ih =>
    intro rest acc W h
    simp only [processDiffs, List.cons_append] at h ⊢
    cases hc : env.canonicalize (pathJoin root d.old_path) with
    | error k => simp [hc] at h
    | ok t =>
      simp only [hc] at h ⊢
      cases hs : pathStartsWith t root with
      | false => simp [hs] at h
      | true =>
        simp only [hs, if_true] at h ⊢
        cases hr : read_to_string (overlayRead env acc) t with
        | error e => simp [hr] at h
        | ok data =>
          simp only [hr] at h ⊢
          cases hap : apply_patch d data with
          | none => simp [hap] at h
          | some nd =>
            simp only [hap] at h ⊢
            exact ih rest _ W h

theorem processPatches_ok_append (env : Env) (root : FsPath) :
    ∀ (ps1 rest : List FsPath) (acc W : List (FsPath × String)),
      processPatches env root ps1 acc = (W, .ok ()) →
      processPatches env root (ps1 ++ rest) acc = processPatches env root rest W := by
  intro ps1
  induction ps1 with
  | nil =>
    intro rest acc W h
    simp only [processPatches, Prod.mk.injEq] at h
    rw [List.nil_append, h.1]
  | cons p tl ih =>
    intro rest acc W h
    simp only [processPatches, List.cons_append] at h ⊢
    cases hr : read_to_string (overlayRead env acc) p with
    | error e => simp [hr] at h
    | ok data =>
      simp only [hr] at h ⊢
      cases hp : env.parseMulti (normalizeText data) with
      | none => simp [hp] at h
      | some ds =>
        simp only [hp] at h ⊢
        rcases hpd : processDiffs env root ds acc with ⟨acc', r⟩
        simp only [hpd] at h ⊢
        cases r with
        | error e => simp at h
        | ok u =>
          cases u
          exact ih rest acc' W h

theorem processDiffs_writes (env : Env) (root : FsPath) :
    ∀ (ds : List FileDiff) (acc : List (FsPath × String)) (w : FsPath × String),
      w ∈ (processDiffs env root ds acc).1 → w ∈ acc ∨ pathStartsWith w.1 root = true := by
  intro ds
  induction ds with
  | nil => intro acc w hw; exact Or.inl hw
  | cons d tl ih =>
    intro acc w hw
    simp only [processDiffs] at hw
    cases hc : env.canonicalize (pathJoin root d.old_path) with
    | error k => simp only [hc] at hw; exact Or.inl hw
    | ok t =>
      simp only [hc] at hw
      cases hs : pathStartsWith t root with
      | false => simp only [hs, Bool.false_eq_true, if_false] at hw; exact Or.inl hw
      | true =>
        simp only [hs, if_true] at hw
        cases hr : read_to_string (overlayRead env acc) t with
        | error e => simp only [hr] at hw; exact Or.inl hw
        | ok data =>
          simp only [hr] at hw
          cases hap : apply_patch d data with
          | none => simp only [hap] at hw; exact Or.inl hw
          | some nd =>
            simp only [hap] at hw
            rcases ih _ w hw with h1 | h1
            · rcases List.mem_append.1 h1 with h2 | h2
              · exact Or.inl h2
              · simp only [List.mem_singleton] at h2
                subst h2
                exact Or.inr hs
            · exact Or.inr h1

theorem processPatches_writes (env : Env) (root : FsPath) :
    ∀ (ps : List FsPath) (acc : List (FsPath × String)) (w : FsPath × String),
      w ∈ (processPatches env root ps acc).1 → w ∈ acc ∨ pathStartsWith w.1 root = true := by
  intro ps
  induction ps with
  | nil => intro acc w hw; exact Or.inl hw
  | cons p tl ih =>
    intro acc w hw
    simp only [processPatches] at hw
    cases hr : read_to_string (overlayRead env acc) p with
    | error e => simp only [hr] at hw; exact Or.inl hw
    | ok data =>
      simp only [hr] at hw
      cases hp : env.parseMulti (normalizeText data) with
      | none => simp only [hp] at hw; exact Or.inl hw
      | some ds =>
        simp only [hp] at hw
        rcases hpd : processDiffs env root ds acc with ⟨acc', r⟩
        simp only [hpd] at hw
        have hsub : w ∈ acc' → w ∈ acc ∨ pathStartsWith w.1 root = true := by
          intro hm
          have := processDiffs_writes env root ds acc w
          rw [hpd] at this
          exact this hm
        cases r with
        | error e => exact hsub hw
        | ok u =>
          cases u
          rcases ih acc' w hw with h1 | h1
          · exact hsub h1
          · exact Or.inr h1

/-- Claim C1: whenever `apply_patches` reaches a per-file diff whose target
path (the staged root joined with the diff's declared old-file path, then
canonicalized) does not have the staged root as a component-wise path
prefix, it returns the error "Patch file tried to escape dependency
folder", the processing of the remaining diffs and patch files is
abandoned, and the write log contains no write to that target (indeed every
write performed up to the abort stayed inside the staged root). -/
theorem c1_escape_guard (env : Env) (name : String) (root : FsPath)
    (ps1 ps2 : List FsPath) (p : FsPath) (W0 W : List (FsPath × String))
    (data : String) (ds1 ds2 : List FileDiff) (d : FileDiff) (t : FsPath)
    (h1 : processPatches env root ps1 [] = (W0, .ok ()))
    (h2 : read_to_string (overlayRead env W0) p = .ok data)
    (h3 : env.parseMulti (normalizeText data) = some (ds1 ++ d :: ds2))
    (h4 : processDiffs env root ds1 W0 = (W, .ok ()))
    (h5 : env.canonicalize (pathJoin root d.old_path) = .ok t)
    (h6 : pathStartsWith t root = false) :
    apply_patches env name (ps1 ++ p :: ps2) root [] =
      (W, .error (.msg "Patch file tried to escape dependency folder"))
    ∧ ∀ w ∈ W, pathStartsWith w.1 root = true ∧ w.1 ≠ t := by
  have hW : ∀ w ∈ W, pathStartsWith w.1 root = true := by
    intro w hw
    have hstep : w ∈ W0 ∨ pathStartsWith w.1 root = true := by
      have := processDiffs_writes env root ds1 W0 w
      rw [h4] at this
      exact this hw
    rcases hstep with h7 | h7
    · have := processPatches_writes env root ps1 [] w
      rw [h1] at this
      rcases this h7 with h8 | h8
      · simp at h8
      · exact h8
    · exact h7
  constructor
  · have happ := processPatches_ok_append env root ps1 (p :: ps2) [] W0 h1
    rw [apply_patches, happ]
    simp only [processPatches, h2, h3]
    have hdd := processDiffs_ok_append env root ds1 (d :: ds2) W0 W h4
    rw [hdd]
    simp [processDiffs, h5, h6]
  · intro w hw
    refine ⟨hW w hw, ?_⟩
    intro he
    have := hW w hw
    rw [he, h6] at this
    exact Bool.false_ne_true this

theorem c1_escape_guard_witness :
    (processPatches cexEnv ["r"] [] [] = ([], .ok ())
      ∧ read_to_string (overlayRead cexEnv []) ["pf"] = .ok "x"
      ∧ cexEnv.parseMulti (normalizeText "x") = some ([] ++ (⟨["esc"], []⟩ : FileDiff) :: [])
      ∧ processDiffs cexEnv ["r"] [] [] = ([], .ok ())
      ∧ cexEnv.canonicalize (pathJoin ["r"] ["esc"]) = .ok []
      ∧ pathStartsWith [] ["r"] = false)
    ∧ (apply_patches cexEnv "n" ([] ++ ["pf"] :: []) ["r"] [] =
        ([], .error (.msg "Patch file tried to escape dependency folder"))
      ∧ ∀ w ∈ ([] : List (FsPath × String)), pathStartsWith w.1 ["r"] = true ∧ w.1 ≠ []) := by
  exact ⟨⟨rfl, rfl, rfl, rfl, rfl, rfl⟩,
    c1_escape_guard cexEnv "n" ["r"] [] [] ["pf"] [] [] "x" [] [] ⟨["esc"], []⟩ []
      rfl rfl rfl rfl rfl rfl⟩

theorem copyThroughFuel_some (ls : List String) :
    ∀ (fuel c : Nat) (out : List String), c + fuel ≤ ls.length →
      ∃ δ, copyThroughFuel ls fuel out c = some (out ++ δ, c + fuel)
        ∧ δ.length = fuel ∧ ∀ x ∈ δ, x ∈ ls := by
  intro fuel
  induction fuel with
  | zero => intro c out _; exact ⟨[], by simp [copyThroughFuel], rfl, by simp⟩
  | succ n ih =>
    intro c out hle
    have hc : c < ls.length := by omega
    have hget : ls[c]? = some ls[c] := List.getElem?_eq_getElem hc
    rcases ih (c + 1) (out ++ [ls[c]]) (by omega) with ⟨δ, h1, h2, h3⟩
    refine ⟨ls[c] :: δ, ?_, by simp [h2], ?_⟩
    · simp only [copyThroughFuel, hget, h1]
      have : c + 1 + n = c + (n + 1) := by omega
      rw [this]
      simp
    · intro x hx
      rcases List.mem_cons.1 hx with h | h
      · subst h; exact List.getElem_mem hc
      · exact h3 x h

theorem copyThroughFuel_none (ls : List String) :
    ∀ (fuel c : Nat) (out : List String), 0 < fuel → ls.length < c + fuel →
      copyThroughFuel ls fuel out c = none := by
  intro fuel
  induction fuel with
  | zero => intro c out h; omega
  | succ n ih =>
    intro c out _ hlt
    by_cases hc : c < ls.length
    · have hget : ls[c]? = some ls[c] := List.getElem?_eq_getElem hc
      have hn : 0 < n := by omega
      simp only [copyThroughFuel, hget]
      exact ih (c + 1) _ hn (by omega)
    · have hget : ls[c]? = none := by
        rw [List.getElem?_eq_none_iff]
        omega
      simp [copyThroughFuel, hget]

theorem copyThrough_some (ls out : List String) (c target : Nat)
    (h1 : c ≤ target) (h2 : target ≤ ls.length) :
    ∃ δ, copyThrough ls out c target = some (out ++ δ, target)
      ∧ δ.length = target - c ∧ ∀ x ∈ δ, x ∈ ls := by
  rcases copyThroughFuel_some ls (target - c) c out (by omega) with ⟨δ, hs, hl, hm⟩
  refine ⟨δ, ?_, hl, hm⟩
  rw [copyThrough, hs]
  have : c + (target - c) = target := by omega
  rw [this]

theorem copyThroughFuel_mem (ls : List String) :
    ∀ (fuel c : Nat) (out out' : List String) (c' : Nat),
      copyThroughFuel ls fuel out c = some (out', c') →
      ∀ x ∈ out', x ∈ out ∨ x ∈ ls := by
  intro fuel
  induction fuel with
  | zero =>
    intro c out out' c' h x hx
    simp only [copyThroughFuel, Option.some.injEq, Prod.mk.injEq] at h
    rw [← h.1] at hx
    exact Or.inl hx
  | succ n ih =>
    intro c out out' c' h x hx
    cases hget : ls[c]? with
    | none => simp [copyThroughFuel, hget] at h
    | some l =>
      simp only [copyThroughFuel, hget] at h
      rcases ih (c + 1) (out ++ [l]) out' c' h x hx with h1 | h1
      · rcases List.mem_append.1 h1 with h2 | h2
        · exact Or.inl h2
        · simp only [List.mem_singleton] at h2
          subst h2
          have hcl : c < ls.length := by
            by_contra hcl
            rw [List.getElem?_eq_none_iff.2 (by omega)] at hget
            exact Option.noConfusion hget
          rw [List.getElem?_eq_getElem hcl, Option.some.injEq] at hget
          rw [← hget]
          exact Or.inr (List.getElem_mem hcl)
      · exact Or.inr h1

theorem applyLines_cursor (ls : List String) :
    ∀ (lines : List PLine) (out : List String) (c : Nat),
      (applyLines ls lines out c).2 =
        c + (lines.filter isOldLine).length := by
  intro lines
  induction lines with
  | nil => intro out c; simp [applyLines]
  | cons l rest ih =>
    intro out c
    cases l with
    | context s => simp [applyLines, ih, isOldLine, List.filter]; omega
    | add s => simp [applyLines, ih, isOldLine, List.filter]
    | remove s => simp [applyLines, ih, isOldLine, List.filter]; omega

theorem applyLines_length (ls : List String) :
    ∀ (lines : List PLine) (out : List String) (c : Nat),
      linesFit ls.length c lines = true →
      (applyLines ls lines out c).1.length =
        out.length + (lines.filter fun l => match l with
          | .remove _ => false | _ => true).length := by
  intro lines
  induction lines with
  | nil => intro out c _; simp [applyLines]
  | cons l rest ih =>
    intro out c hfit
    cases l with
    | context s =>
      simp only [linesFit, Bool.and_eq_true, decide_eq_true_eq] at hfit
      simp only [applyLines, if_pos hfit.1]
      rw [ih _ _ hfit.2]
      simp [List.filter]
      omega
    | add s =>
      simp only [linesFit] at hfit
      simp only [applyLines]
      rw [ih _ _ hfit]
      simp [List.filter]
      omega
    | remove s =>
      simp only [linesFit, Bool.and_eq_true, decide_eq_true_eq] at hfit
      simp only [applyLines]
      rw [ih _ _ hfit.2]
      simp [List.filter]

theorem applyLines_mem (ls : List String) :
    ∀ (lines : List PLine) (out : List String) (c : Nat) (x : String),
      x ∈ (applyLines ls lines out c).1 →
      x ∈ out ∨ x ∈ ls ∨ x ∈ lines.filterMap fun l => match l with
        | .add s => some s | _ => none := by
  intro lines
  induction lines with
  | nil => intro out c x hx; exact Or.inl hx
  | cons l rest ih =>
    intro out c x hx
    cases l with
    | context s =>
      simp only [applyLines] at hx
      rcases ih _ _ x hx with h1 | h1 | h1
      · by_cases hc : c < ls.length
        · rw [if_pos hc] at h1
          rcases List.mem_append.1 h1 with h2 | h2
          · exact Or.inl h2
          · simp only [List.mem_singleton] at h2
            subst h2
            have : ls.getD c "" = ls[c] := by
              rw [List.getD_eq_getElem?_getD, List.getElem?_eq_getElem hc]
              rfl
            rw [this]
            exact Or.inr (Or.inl (List.getElem_mem hc))
        · rw [if_neg hc] at h1
          exact Or.inl h1
      · exact Or.inr (Or.inl h1)
      · exact Or.inr (Or.inr (by simpa using h1))
    | add s =>
      simp only [applyLines] at hx
      rcases ih _ _ x hx with h1 | h1 | h1
      · rcases List.mem_append.1 h1 with h2 | h2
        · exact Or.inl h2
        · simp only [List.mem_singleton] at h2
          subst h2
          exact Or.inr (Or.inr (by simp))
      · exact Or.inr (Or.inl h1)
      · exact Or.inr (Or.inr (by simp; right; simpa using h1))
    | remove s =>
      simp only [applyLines] at hx
      rcases ih _ _ x hx with h1 | h1 | h1
      · exact Or.inl h1
      · exact Or.inr (Or.inl h1)
      · exact Or.inr (Or.inr (by simpa using h1))

theorem linesFit_le (len : Nat) :
    ∀ (lines : List PLine) (c : Nat), linesFit len c lines = true → c ≤ len →
      c + (lines.filter isOldLine).length ≤ len := by
  intro lines
  induction lines with
  | nil => intro c _ hc; simpa using hc
  | cons l rest ih =>
    intro c hfit hc
    cases l with
    | context s =>
      simp only [linesFit, Bool.and_eq_true, decide_eq_true_eq] at hfit
      have := ih (c + 1) hfit.2 (by omega)
      simp only [List.filter, isOldLine, List.length_cons]
      omega
    | add s =>
      simp only [linesFit] at hfit
      have := ih c hfit hc
      simp only [List.filter, isOldLine]
      omega
    | remove s =>
      simp only [linesFit, Bool.and_eq_true, decide_eq_true_eq] at hfit
      have := ih (c + 1) hfit.2 (by omega)
      simp only [List.filter, isOldLine, List.length_cons]
      omega

theorem applyHunks_isSome (ls : List String) :
    ∀ (hs : List Hunk) (st : List String × Nat),
      (∀ h ∈ hs, 1 ≤ h.old_range.start ∧ h.old_range.start ≤ ls.length + 1) →
      (applyHunks ls hs st).isSome = true := by
  intro hs
  induction hs with
  | nil => intro st _; rfl
  | cons h tl ih =>
    intro st hb
    have hh := hb h (by simp)
    have hz : ¬ h.old_range.start = 0 := by omega
    have htar : h.old_range.start - 1 ≤ ls.length := by omega
    by_cases hcle : st.2 ≤ h.old_range.start - 1
    · rcases copyThrough_some ls st.1 st.2 (h.old_range.start - 1) hcle htar with ⟨δ, hc, _, _⟩
      simp only [applyHunks, applyHunk, if_neg hz, hc]
      exact ih _ (fun x hx => hb x (by simp [hx]))
    · have hfuel : h.old_range.start - 1 - st.2 = 0 := by omega
      have hc : copyThrough ls st.1 st.2 (h.old_range.start - 1) = some (st.1, st.2) := by
        rw [copyThrough, hfuel]
        rfl
      simp only [applyHunks, applyHunk, if_neg hz, hc]
      exact ih _ (fun x hx => hb x (by simp [hx]))

theorem applyHunks_count (ls : List String) :
    ∀ (hs : List Hunk) (out : List String) (c : Nat),
      hunksInRange ls.length c hs = true → c ≤ ls.length →
      ∃ out' c', applyHunks ls hs (out, c) = some (out', c')
        ∧ c ≤ c' ∧ c' ≤ ls.length
        ∧ out'.length + totalRemoved hs = out.length + (c' - c) + totalAdded hs := by
  intro hs
  induction hs with
  | nil =>
    intro out c _ hc
    exact ⟨out, c, rfl, le_refl c, hc, by simp [totalRemoved, totalAdded]⟩
  | cons h tl ih =>
    intro out c hr hc
    simp only [hunksInRange, Bool.and_eq_true, decide_eq_true_eq] at hr
    obtain ⟨⟨⟨⟨h1, h2⟩, h3⟩, h4⟩, h5⟩ := hr
    have hz : ¬ h.old_range.start = 0 := by omega
    rcases copyThrough_some ls out c (h.old_range.start - 1) h2 h3 with ⟨δ, hcopy, hδ, _⟩
    have hcur := applyLines_cursor ls h.lines (out ++ δ) (h.old_range.start - 1)
    have hlen := applyLines_length ls h.lines (out ++ δ) (h.old_range.start - 1) h4
    rcases hal : applyLines ls h.lines (out ++ δ) (h.old_range.start - 1) with ⟨out2, c2⟩
    rw [hal] at hcur hlen
    simp only at hcur hlen
    have hc2 : c2 ≤ ls.length := by
      have := linesFit_le ls.length h.lines (h.old_range.start - 1) h4 h3
      omega
    have hr' : hunksInRange ls.length c2 tl = true := by
      rw [hcur]
      exact h5
    rcases ih out2 c2 hr' hc2 with ⟨out', c', hrec, hcc, hcl, hcount⟩
    refine ⟨out', c', ?_, by omega, hcl, ?_⟩
    · simp only [applyHunks, applyHunk, if_neg hz, hcopy, hal]
      exact hrec
    · have e1 : (h.lines.filter fun l => match l with
          | .remove _ => false | _ => true).length +
          (h.lines.filter fun l => match l with
          | .remove _ => true | _ => false).length = h.lines.length := by
        induction h.lines with
        | nil => rfl
        | cons l rest ihl =>
          cases l <;> simp [List.filter] <;> omega
      have e2 : (h.lines.filter isOldLine).length +
          (h.lines.filter fun l => match l with
          | .add _ => true | _ => false).length = h.lines.length := by
        induction h.lines with
        | nil => rfl
        | cons l rest ihl =>
          cases l <;> simp [List.filter, isOldLine] <;> omega
      have ht1 : totalRemoved (h :: tl) = (h.lines.filter fun l => match l with
          | .remove _ => true | _ => false).length + totalRemoved tl := by
        simp [totalRemoved]
      have ht2 : totalAdded (h :: tl) = (h.lines.filter fun l => match l with
          | .add _ => true | _ => false).length + totalAdded tl := by
        simp [totalAdded]
      rw [ht1, ht2]
      have hout2 : out2.length = out.length + δ.length +
          (h.lines.filter fun l => match l with
          | .remove _ => false | _ => true).length := by
        rw [hlen]
        simp
      omega

theorem applyHunks_mem (ls : List String) :
    ∀ (hs : List Hunk) (st : List String × Nat) (out' : List String) (c' : Nat),
      applyHunks ls hs st = some (out', c') →
      ∀ x ∈ out', x ∈ st.1 ∨ x ∈ ls ∨ x ∈ addTexts hs := by
  intro hs
  induction hs with
  | nil =>
    intro st out' c' h x hx
    simp only [applyHunks, Option.some.injEq] at h
    rw [h]
    exact Or.inl hx
  | cons hk tl ih =>
    intro st out' c' h x hx
    simp only [applyHunks, applyHunk] at h
    by_cases hz : hk.old_range.start = 0
    · simp [hz] at h
    · rw [if_neg hz] at h
      cases hcopy : copyThrough ls st.1 st.2 (hk.old_range.start - 1) with
      | none => rw [hcopy] at h; exact absurd h (by simp)
      | some stc =>
        rw [hcopy] at h
        simp only at h
        rcases ih _ _ _ h x hx with h1 | h1 | h1
        · rcases hal : applyLines ls hk.lines stc.1 stc.2 with ⟨out2, c2⟩
          rw [hal] at h1
          have := applyLines_mem ls hk.lines stc.1 stc.2 x (by rw [hal]; exact h1)
          rcases this with h2 | h2 | h2
          · rcases stc with ⟨outc, cc⟩
            have := copyThroughFuel_mem ls (hk.old_range.start - 1 - st.2) st.2 st.1 outc cc
              (by rw [← copyThrough]; exact hcopy) x h2
            exact this.imp id Or.inl
          · exact Or.inr (Or.inl h2)
          · refine Or.inr (Or.inr ?_)
            simp only [addTexts, List.map_cons, List.flatten_cons, List.mem_append]
            exact Or.inl h2
        · exact Or.inr (Or.inl h1)
        · refine Or.inr (Or.inr ?_)
          simp only [addTexts, List.map_cons, List.flatten_cons, List.mem_append]
          right
          simpa [addTexts] using h1

/-- Claim C10: `apply_patch` is total exactly under the range precondition.
If the hunks appear in increasing order of declared start and every start
is at least 1 and at most one more than the number of original lines, all
indexing stays in bounds and a string is returned; a first hunk with start
0 makes the `u64` subtraction `start - 1` underflow, and a first hunk with
start more than one past the end drives the unchecked copy-through
indexing out of bounds — in both cases no string is produced. -/
theorem c10_apply_patch_bounds :
    (∀ (p : FsPath) (hs : List Hunk) (old : String),
      List.Pairwise (fun a b => a.old_range.start ≤ b.old_range.start) hs →
      (∀ h ∈ hs, 1 ≤ h.old_range.start ∧ h.old_range.start ≤ (rustLines old).length + 1) →
      (apply_patch ⟨p, hs⟩ old).isSome = true)
    ∧ (∀ (p : FsPath) (h : Hunk) (rest : List Hunk) (old : String),
        h.old_range.start = 0 → apply_patch ⟨p, h :: rest⟩ old = none)
    ∧ (∀ (p : FsPath) (h : Hunk) (rest : List Hunk) (old : String),
        (rustLines old).length + 1 < h.old_range.start →
        apply_patch ⟨p, h :: rest⟩ old = none) := by
  refine ⟨?_, ?_, ?_⟩
  · intro p hs old _ hb
    have := applyHunks_isSome (rustLines old) hs ([], 0) hb
    simp only [apply_patch, patchSegs, Option.isSome_map]
    simpa using this
  · intro p h rest old hz
    simp [apply_patch, patchSegs, applyHunks, applyHunk, hz]
  · intro p h rest old hlt
    have hz : ¬ h.old_range.start = 0 := by omega
    have hnone : copyThrough (rustLines old) [] 0 (h.old_range.start - 1) = none := by
      rw [copyThrough]
      exact copyThroughFuel_none (rustLines old) (h.old_range.start - 1 - 0) 0 []
        (by omega) (by omega)
    simp [apply_patch, patchSegs, applyHunks, applyHunk, hz, hnone]

theorem c10_apply_patch_bounds_witness :
    (List.Pairwise (fun a b => a.old_range.start ≤ b.old_range.start)
        [(⟨⟨1, 1⟩, ⟨1, 1⟩, [.add "x"]⟩ : Hunk)]
      ∧ (∀ h ∈ [(⟨⟨1, 1⟩, ⟨1, 1⟩, [.add "x"]⟩ : Hunk)],
          1 ≤ h.old_range.start ∧ h.old_range.start ≤ (rustLines "a\n").length + 1)
      ∧ (apply_patch ⟨[], [⟨⟨1, 1⟩, ⟨1, 1⟩, [.add "x"]⟩]⟩ "a\n").isSome = true)
    ∧ ((⟨⟨0, 1⟩, ⟨1, 1⟩, [.context "a"]⟩ : Hunk).old_range.start = 0
      ∧ apply_patch ⟨[], [⟨⟨0, 1⟩, ⟨1, 1⟩, [.context "a"]⟩]⟩ "a\n" = none)
    ∧ ((rustLines "a\n").length + 1 < (⟨⟨9, 1⟩, ⟨9, 1⟩, []⟩ : Hunk).old_range.start
      ∧ apply_patch ⟨[], [⟨⟨9, 1⟩, ⟨9, 1⟩, []⟩]⟩ "a\n" = none) := by
  refine ⟨⟨?_, ?_, ?_⟩, ⟨rfl, ?_⟩, ⟨by decide, ?_⟩⟩
  · simp
  · intro h hh
    simp only [List.mem_singleton] at hh
    subst hh
    decide
  · exact c10_apply_patch_bounds.1 [] [⟨⟨1, 1⟩, ⟨1, 1⟩, [.add "x"]⟩] "a\n" (by simp)
      (by intro h hh; simp only [List.mem_singleton] at hh; subst hh; decide)
  · exact c10_apply_patch_bounds.2.1 [] ⟨⟨0, 1⟩, ⟨1, 1⟩, [.context "a"]⟩ [] "a\n" rfl
  · exact c10_apply_patch_bounds.2.2 [] ⟨⟨9, 1⟩, ⟨9, 1⟩, []⟩ [] "a\n" (by decide)

theorem splitNL_of_no_nl : ∀ (cs : List Char), '\n' ∉ cs → splitNLChars cs = [cs] := by
  intro cs
  induction cs with
  | nil => intro _; rfl
  | cons c t ih =>
    intro h
    have hc : ¬ c = '\n' := fun he => h (by rw [he]; exact List.mem_cons_self _ _)
    have ht : '\n' ∉ t := fun hm => h (List.mem_cons_of_mem _ hm)
    simp only [splitNLChars, if_neg hc, ih ht]

theorem splitNL_append_nl :
    ∀ (p rest : List Char), '\n' ∉ p →
      splitNLChars (p ++ '\n' :: rest) = p :: splitNLChars rest := by
  intro p
  induction p with
  | nil => intro rest _; simp [splitNLChars]
  | cons c t ih =>
    intro rest h
    have hc : ¬ c = '\n' := fun he => h (by rw [he]; exact List.mem_cons_self _ _)
    have ht : '\n' ∉ t := fun hm => h (List.mem_cons_of_mem _ hm)
    rw [List.cons_append]
    simp only [splitNLChars, if_neg hc]
    rw [ih rest ht]

theorem splitNL_ne_nil (cs : List Char) : splitNLChars cs ≠ [] := by
  cases cs with
  | nil => simp [splitNLChars]
  | cons c t =>
    simp only [splitNLChars]
    split
    · simp
    · split <;> simp

theorem splitNL_joinWithNL :
    ∀ (ps : List (List Char)), ps ≠ [] → (∀ p ∈ ps, '\n' ∉ p) →
      splitNLChars (joinWithNL ps) = ps := by
  intro ps
  induction ps with
  | nil => intro h _; exact absurd rfl h
  | cons p ps ih =>
    intro _ hnl
    cases ps with
    | nil => exact splitNL_of_no_nl p (hnl p (by simp))
    | cons q qs =>
      have hj : joinWithNL (p :: q :: qs) = p ++ '\n' :: joinWithNL (q :: qs) := rfl
      rw [hj, splitNL_append_nl p _ (hnl p (by simp)),
        ih (by simp) (fun x hx => hnl x (List.mem_cons_of_mem _ hx))]

theorem joinWithNL_splitNL : ∀ (cs : List Char), joinWithNL (splitNLChars cs) = cs := by
  intro cs
  induction cs with
  | nil => rfl
  | cons c t ih =>
    by_cases hc : c = '\n'
    · subst hc
      rcases hr : splitNLChars t with _ | ⟨r0, rs⟩
      · exact absurd hr (splitNL_ne_nil t)
      · have hs : splitNLChars ('\n' :: t) = [] :: r0 :: rs := by
          simp [splitNLChars, hr]
        rw [hs]
        have h1 : joinWithNL ([] :: r0 :: rs) = '\n' :: joinWithNL (r0 :: rs) := rfl
        rw [h1, ← hr, ih]
    · rcases hr : splitNLChars t with _ | ⟨r0, rs⟩
      · exact absurd hr (splitNL_ne_nil t)
      · have hs : splitNLChars (c :: t) = (c :: r0) :: rs := by
          simp [splitNLChars, if_neg hc, hr]
        rw [hs]
        rw [hr] at ih
        cases rs with
        | nil =>
          have h1 : joinWithNL [c :: r0] = c :: r0 := rfl
          rw [h1]
          have h2 : joinWithNL [r0] = r0 := rfl
          rw [h2] at ih
          rw [ih]
        | cons r1 rs' =>
          have h1 : joinWithNL ((c :: r0) :: r1 :: rs') =
              (c :: r0) ++ '\n' :: joinWithNL (r1 :: rs') := rfl
          have h2 : joinWithNL (r0 :: r1 :: rs') = r0 ++ '\n' :: joinWithNL (r1 :: rs') := rfl
          rw [h2] at ih
          rw [h1, List.cons_append, ih]

theorem mem_splitNL_no_nl : ∀ (cs : List Char), ∀ p ∈ splitNLChars cs, '\n' ∉ p := by
  intro cs
  induction cs with
  | nil =>
    intro p hp
    simp only [splitNLChars, List.mem_singleton] at hp
    subst hp
    simp
  | cons c t ih =>
    intro p hp
    by_cases hc : c = '\n'
    · rw [hc] at hp
      simp only [splitNLChars, if_pos rfl] at hp
      rcases List.mem_cons.1 hp with h | h
      · subst h; simp
      · exact ih p h
    · simp only [splitNLChars, if_neg hc] at hp
      rcases hr : splitNLChars t with _ | ⟨r0, rs⟩
      · exact absurd hr (splitNL_ne_nil t)
      · rw [hr] at hp
        rcases List.mem_cons.1 hp with h | h
        · subst h
          intro hmem
          rcases List.mem_cons.1 hmem with h1 | h1
          · exact hc h1.symm
          · exact ih r0 (by rw [hr]; exact List.mem_cons_self _ _) h1
        · exact ih p (by rw [hr]; exact List.mem_cons_of_mem _ h)

theorem joinWithNL_concat :
    ∀ (ps : List (List Char)) (q : List Char), ps ≠ [] →
      joinWithNL (ps ++ [q]) = joinWithNL ps ++ '\n' :: q := by
  intro ps
  induction ps with
  | nil => intro q h; exact absurd rfl h
  | cons p ps ih =>
    intro q _
    cases ps with
    | nil => rfl
    | cons r rs =>
      have h1 : joinWithNL ((p :: r :: rs) ++ [q]) =
          p ++ '\n' :: joinWithNL ((r :: rs) ++ [q]) := rfl
      have h2 : joinWithNL (p :: r :: rs) = p ++ '\n' :: joinWithNL (r :: rs) := rfl
      rw [h1, h2, ih q (by simp)]
      simp [List.append_assoc]

theorem mem_rustLines_no_nl (s : String) : ∀ x ∈ rustLines s, '\n' ∉ x.data := by
  intro x hx
  simp only [rustLines] at hx
  rcases List.mem_append.1 hx with h | h
  · rcases List.mem_map.1 h with ⟨l, hl, he⟩
    have hns : '\n' ∉ l :=
      mem_splitNL_no_nl s.data l (List.dropLast_subset _ hl)
    rw [← he]
    intro hmem
    have : '\n' ∈ l := by
      by_cases hcr : l.getLast? = some '\r'
      · exact List.dropLast_subset _ (by simpa [stripCR, hcr] using hmem)
      · simpa [stripCR, hcr] using hmem
    exact hns this
  · rcases hlast : (splitNLChars s.data).getLast? with _ | l
    · rw [hlast] at h; simp at h
    · rw [hlast] at h
      cases l with
      | nil => simp at h
      | cons c cs =>
        simp only [List.mem_singleton] at h
        subst h
        have hmem : (c :: cs) ∈ splitNLChars s.data := by
          rcases List.getLast?_eq_some_iff.1 hlast with ⟨ys, hys⟩
          rw [hys]
          simp
        exact mem_splitNL_no_nl s.data _ hmem

theorem numLines_joinNL (xs : List String) (h : ∀ x ∈ xs, '\n' ∉ x.data) :
    numLinesStr (joinNL xs) =
      if xs = [] then 0 else xs.length - 1 + (if xs.getLast? = some "" then 0 else 1) := by
  by_cases hx : xs = []
  · subst hx
    simp only [if_pos rfl]
    decide
  · rw [if_neg hx]
    have hmap : xs.map String.data ≠ [] := by simpa using hx
    have hsplit : splitNLChars (joinNL xs).data = xs.map String.data := by
      have : (joinNL xs).data = joinWithNL (xs.map String.data) := rfl
      rw [this]
      exact splitNL_joinWithNL _ hmap (by
        intro p hp
        rcases List.mem_map.1 hp with ⟨x, hxm, he⟩
        rw [← he]
        exact h x hxm)
    simp only [numLinesStr, rustLines, hsplit, List.length_append, List.length_map,
      List.length_dropLast]
    have hB : (match (xs.map String.data).getLast? with
        | some [] => ([] : List String)
        | some l => [(⟨l⟩ : String)]
        | none => []).length = if xs.getLast? = some "" then 0 else 1 := by
      rw [List.getLast?_map]
      rcases hl : xs.getLast? with _ | s
      · exact absurd (List.getLast?_eq_none_iff.1 hl) hx
      · by_cases hse : s = ""
        · subst hse
          simp
        · have hd : s.data ≠ [] := by
            intro hd
            exact hse (String.ext hd)
          rcases hsd : s.data with _ | ⟨c, cs⟩
          · exact absurd hsd hd
          · simp only [Option.map_some', hsd]
            rw [if_neg (by simpa using hse)]
            rfl
    rw [hB]

theorem endsNL_joinNL_concat_empty (xs : List String) (hx : xs ≠ []) :
    endsNL (joinNL (xs ++ [""])) = true := by
  have hmap : xs.map String.data ≠ [] := by simpa using hx
  have hdata : (joinNL (xs ++ [""])).data =
      joinWithNL (xs.map String.data) ++ '\n' :: [] := by
    have h1 : (joinNL (xs ++ [""])).data = joinWithNL ((xs ++ [""]).map String.data) := rfl
    rw [h1, List.map_append]
    exact joinWithNL_concat _ _ hmap
  simp only [endsNL, hdata]
  rw [List.getLast?_concat]
  simp

theorem endsNL_joinNL_last_ne (xs : List String) (s : String)
    (hl : xs.getLast? = some s) (hne : s ≠ "") (hnl : '\n' ∉ s.data) :
    endsNL (joinNL xs) = false := by
  have hd : s.data ≠ [] := fun h => hne (String.ext h)
  have hlast : s.data.getLast? ≠ some '\n' := by
    intro h
    rcases List.getLast?_eq_some_iff.1 h with ⟨ys, hys⟩
    exact hnl (by rw [hys]; simp)
  rcases List.getLast?_eq_some_iff.1 hl with ⟨ys, hys⟩
  subst hys
  cases ys with
  | nil =>
    have h1 : joinNL [s] = s := by
      apply String.ext
      rfl
    rw [List.nil_append, h1]
    simp only [endsNL]
    simpa using hlast
  | cons y ys' =>
    have hmap : (y :: ys').map String.data ≠ [] := by simp
    have hdata : (joinNL ((y :: ys') ++ [s])).data =
        joinWithNL ((y :: ys').map String.data) ++ '\n' :: s.data := by
      have h1 : (joinNL ((y :: ys') ++ [s])).data =
          joinWithNL (((y :: ys') ++ [s]).map String.data) := rfl
      rw [h1, List.map_append]
      exact joinWithNL_concat _ _ hmap
    simp only [endsNL, hdata]
    rw [List.getLast?_append_of_ne_nil _ (by simp)]
    have h2 : ('\n' :: s.data).getLast? = s.data.getLast? := by
      rcases hsd : s.data with _ | ⟨c, cs⟩
      · exact absurd hsd hd
      · simp [List.getLast?_cons_cons]
    rw [h2]
    simpa using hlast

theorem patchSegs_mem (hs : List Hunk) (old : String) (segs : List String)
    (h : patchSegs hs old = some segs) :
    ∀ x ∈ segs, x ∈ rustLines old ∨ x ∈ addTexts hs := by
  intro x hx
  simp only [patchSegs, Option.map_eq_some'] at h
  rcases h with ⟨st, hst, hseg⟩
  rw [← hseg] at hx
  rcases List.mem_append.1 hx with h1 | h1
  · rcases st with ⟨out', c'⟩
    have := applyHunks_mem (rustLines old) hs ([], 0) out' c' hst x h1
    rcases this with h2 | h2 | h2
    · simp at h2
    · exact Or.inl h2
    · exact Or.inr h2
  · exact Or.inl (List.drop_subset _ _ h1)

theorem patchSegs_count (hs : List Hunk) (old : String)
    (h1 : hunksInRange (rustLines old).length 0 hs = true) :
    ∃ segs, patchSegs hs old = some segs
      ∧ segs.length + totalRemoved hs = (rustLines old).length + totalAdded hs := by
  rcases applyHunks_count (rustLines old) hs [] 0 h1 (Nat.zero_le _) with
    ⟨out', c', hah, _, hcl, hcount⟩
  refine ⟨out' ++ (rustLines old).drop c', ?_, ?_⟩
  · simp [patchSegs, hah]
  · rw [List.length_append, List.length_drop]
    simp only [List.length_nil] at hcount
    omega

/-- Counterexample to claim C5 as stated: applying the single-hunk diff
`@@ -1,1 +0,0 @@ / -a` (remove the only line) to `"a\n"` yields `""`: the
original ends with a line break but the output does not, because the lone
appended empty segment joins to the empty string. -/
theorem c5_trailing_newline_counterexample :
    endsNL "a\n" = true
    ∧ apply_patch ⟨[], [⟨⟨1, 1⟩, ⟨0, 0⟩, [.remove "a"]⟩]⟩ "a\n" = some ""
    ∧ endsNL "" = false := by
  decide

/-- Claim C5, amended: for diffs whose added texts contain no line break,
the output of `apply_patch` is the newline-join of the emitted segments
(with one empty segment appended when the original ends with a line break),
and trailing-newline preservation holds except in two corner cases: when
the original ends with a line break it is preserved whenever at least one
segment is emitted (otherwise the output is empty), and when the original
does not end with a line break the output also does not whenever the final
emitted segment is not the empty string. -/
theorem c5_trailing_newline (p : FsPath) (hs : List Hunk) (old : String) (segs : List String)
    (hnl : ∀ s ∈ addTexts hs, '\n' ∉ s.data)
    (hseg : patchSegs hs old = some segs) :
    apply_patch ⟨p, hs⟩ old = some (joinNL (if endsNL old then segs ++ [""] else segs))
    ∧ (endsNL old = true → segs ≠ [] → endsNL (joinNL (segs ++ [""])) = true)
    ∧ (endsNL old = true → segs = [] → joinNL (segs ++ [""]) = "")
    ∧ (endsNL old = false → segs.getLast? ≠ some "" → endsNL (joinNL segs) = false) := by
  refine ⟨by simp [apply_patch, hseg], ?_, ?_, ?_⟩
  · intro _ hne
    exact endsNL_joinNL_concat_empty segs hne
  · intro _ he
    subst he
    rfl
  · intro _ hlast
    rcases List.eq_nil_or_concat segs with he | ⟨ys, s, he⟩
    · subst he
      rfl
    · subst he
      simp only [List.concat_eq_append] at hseg hlast ⊢
      have hgl : (ys ++ [s]).getLast? = some s := List.getLast?_concat _
      have hsne : s ≠ "" := by
        intro he
        exact hlast (by rw [hgl, he])
      have hmem : s ∈ ys ++ [s] := by simp
      have hnls : '\n' ∉ s.data := by
        rcases patchSegs_mem hs old _ hseg s hmem with h | h
        · exact mem_rustLines_no_nl old s h
        · exact hnl s h
      exact endsNL_joinNL_last_ne _ s hgl hsne hnls

theorem c5_trailing_newline_witness :
    (∀ s ∈ addTexts [(⟨⟨1, 1⟩, ⟨1, 1⟩, [.remove "a", .add "b"]⟩ : Hunk)], '\n' ∉ s.data)
    ∧ patchSegs [⟨⟨1, 1⟩, ⟨1, 1⟩, [.remove "a", .add "b"]⟩] "a\n" = some ["b"]
    ∧ (apply_patch ⟨[], [⟨⟨1, 1⟩, ⟨1, 1⟩, [.remove "a", .add "b"]⟩]⟩ "a\n" =
          some (joinNL (if endsNL "a\n" then ["b"] ++ [""] else ["b"]))
      ∧ (endsNL "a\n" = true → ["b"] ≠ [] → endsNL (joinNL (["b"] ++ [""])) = true)
      ∧ (endsNL "a\n" = true → ["b"] = [] → joinNL (["b"] ++ [""]) = "")
      ∧ (endsNL "a\n" = false → (["b"] : List String).getLast? ≠ some "" →
          endsNL (joinNL ["b"]) = false)) := by
  exact ⟨by decide, by decide,
    c5_trailing_newline [] [⟨⟨1, 1⟩, ⟨1, 1⟩, [.remove "a", .add "b"]⟩] "a\n" ["b"]
      (by decide) (by decide)⟩

/-- Counterexample to claim C4 as stated: on the three-line original
`"a\n\nb"` (no trailing newline), the in-range hunk `@@ -3,1` removing the
final line "b" leaves the segments `["a", ""]`, which join to `"a\n"` — a
one-line output where the law `3 - 1 + 0 = 2` demands two lines. -/
theorem c4_line_count_counterexample :
    hunksInRange (rustLines "a\n\nb").length 0 [⟨⟨3, 1⟩, ⟨3, 0⟩, [.remove "b"]⟩] = true
    ∧ apply_patch ⟨[], [⟨⟨3, 1⟩, ⟨3, 0⟩, [.remove "b"]⟩]⟩ "a\n\nb" = some "a\n"
    ∧ numLinesStr "a\n" + totalRemoved [⟨⟨3, 1⟩, ⟨3, 0⟩, [.remove "b"]⟩] ≠
        numLinesStr "a\n\nb" + totalAdded [⟨⟨3, 1⟩, ⟨3, 0⟩, [.remove "b"]⟩] := by
  decide

/-- Claim C4, amended: for every original and every diff whose hunks lie in
order within the original's line range and whose added texts contain no
line break, `apply_patch` succeeds, and the line-count law
`lines(output) + R = lines(original) + A` holds whenever the original ends
with a line break or the final emitted segment is not the empty string; in
the excluded corner (no trailing line break and a final empty segment) the
newline-join collapses that segment and the output falls one line short. -/
theorem c4_line_count (p : FsPath) (hs : List Hunk) (old : String)
    (h1 : hunksInRange (rustLines old).length 0 hs = true)
    (h2 : ∀ s ∈ addTexts hs, '\n' ∉ s.data) :
    ∃ segs, patchSegs hs old = some segs
      ∧ apply_patch ⟨p, hs⟩ old = some (joinNL (if endsNL old then segs ++ [""] else segs))
      ∧ ((endsNL old = true ∨ segs.getLast? ≠ some "") →
          numLinesStr (joinNL (if endsNL old then segs ++ [""] else segs)) + totalRemoved hs
            = numLinesStr old + totalAdded hs) := by
  rcases patchSegs_count hs old h1 with ⟨segs, hseg, hcount⟩
  have hnlsegs : ∀ x ∈ segs, '\n' ∉ x.data := by
    intro x hx
    rcases patchSegs_mem hs old segs hseg x hx with h | h
    · exact mem_rustLines_no_nl old x h
    · exact h2 x h
  refine ⟨segs, hseg, by simp [apply_patch, hseg], ?_⟩
  intro hcase
  have hlen : numLinesStr old = (rustLines old).length := rfl
  cases hE : endsNL old with
  | true =>
    rw [if_pos rfl]
    have hnl2 : ∀ x ∈ segs ++ [""], '\n' ∉ x.data := by
      intro x hx
      rcases List.mem_append.1 hx with h | h
      · exact hnlsegs x h
      · simp only [List.mem_singleton] at h
        subst h
        simp
    have hNL : numLinesStr (joinNL (segs ++ [""])) = segs.length := by
      rw [numLines_joinNL _ hnl2, if_neg (by simp), List.getLast?_concat]
      simp
    rw [hNL]
    omega
  | false =>
    have hlast : segs.getLast? ≠ some "" := by
      rcases hcase with hc | hc
      · rw [hE] at hc; exact absurd hc (by simp)
      · exact hc
    rw [if_neg (by simp)]
    by_cases hz : segs = []
    · subst hz
      have h0 : numLinesStr (joinNL []) = 0 := by decide
      rw [h0]
      simp only [List.length_nil] at hcount
      omega
    · have hNL : numLinesStr (joinNL segs) = segs.length := by
        rw [numLines_joinNL _ hnlsegs, if_neg hz, if_neg hlast]
        rcases segs with _ | ⟨a, b⟩
        · exact absurd rfl hz
        · simp only [List.length_cons]
          omega
      rw [hNL]
      omega

theorem c4_line_count_witness :
    hunksInRange (rustLines "a\n").length 0 [⟨⟨1, 1⟩, ⟨1, 1⟩, [.remove "a", .add "b"]⟩] = true
    ∧ (∀ s ∈ addTexts [(⟨⟨1, 1⟩, ⟨1, 1⟩, [.remove "a", .add "b"]⟩ : Hunk)], '\n' ∉ s.data)
    ∧ ∃ segs, patchSegs [⟨⟨1, 1⟩, ⟨1, 1⟩, [.remove "a", .add "b"]⟩] "a\n" = some segs
      ∧ apply_patch ⟨[], [⟨⟨1, 1⟩, ⟨1, 1⟩, [.remove "a", .add "b"]⟩]⟩ "a\n" =
          some (joinNL (if endsNL "a\n" then segs ++ [""] else segs))
      ∧ ((endsNL "a\n" = true ∨ segs.getLast? ≠ some "") →
          numLinesStr (joinNL (if endsNL "a\n" then segs ++ [""] else segs)) +
              totalRemoved [⟨⟨1, 1⟩, ⟨1, 1⟩, [.remove "a", .add "b"]⟩]
            = numLinesStr "a\n" + totalAdded [⟨⟨1, 1⟩, ⟨1, 1⟩, [.remove "a", .add "b"]⟩]) := by
  exact ⟨by decide, by decide,
    c4_line_count [] [⟨⟨1, 1⟩, ⟨1, 1⟩, [.remove "a", .add "b"]⟩] "a\n" (by decide) (by decide)⟩

theorem takeDigits_append (d r : List Char) (hd : ∀ c ∈ d, c.isDigit = true)
    (hr : ∀ c, r.head? = some c → c.isDigit = false) :
    takeDigits (d ++ r) = (d, r) := by
  induction d with
  | nil =>
    cases r with
    | nil => rfl
    | cons c t =>
      have := hr c rfl
      simp [takeDigits, List.takeWhile_cons, List.dropWhile_cons, this]
  | cons c d' ih =>
    have hc := hd c (by simp)
    have ih' := ih (fun x hx => hd x (List.mem_cons_of_mem _ hx))
    simp only [takeDigits, Prod.mk.injEq] at ih'
    simp [takeDigits, List.takeWhile_cons, List.dropWhile_cons, hc, ih'.1, ih'.2]

theorem normalizeParts_id :
    ∀ (parts : List (List Char)), (∀ l ∈ parts, parseHeaderCore l = none) →
      normalizeParts parts = parts := by
  intro parts
  induction parts with
  | nil => intro _; rfl
  | cons l rest ih =>
    intro h
    cases rest with
    | nil => rfl
    | cons r0 rs =>
      have h1 : normalizeParts (l :: r0 :: rs) =
          normalizeLineChars l :: normalizeParts (r0 :: rs) := rfl
      rw [h1, ih (fun x hx => h x (List.mem_cons_of_mem _ hx))]
      have h2 : normalizeLineChars l = l := by
        simp [normalizeLineChars, h l (by simp)]
      rw [h2]

/-- Claim C6: the hunk-header normalizer (the model of the `RANGE_REGEX`
replace-all).  Every header line `@@ -<d1>,<d2> +<d3>[,<d4>] @@<junk>` is
rewritten to the bare header (trailing text stripped; the per-line rewrite
is applied to every newline-terminated line of the stream, so the header
stays followed by a line break); any line not starting with `@` — in
particular every hunk body line, whose first character is the ` `/`+`/`-`
marker, even when its text contains an `@@ ... @@`-shaped substring — is
left unchanged; text in which no line matches passes through entirely
unchanged, and the rewrite is total (no error condition); a concrete
multi-hunk multi-file stream with trailing header text and an `@@`-shaped
body line is normalized exactly as the claim describes. -/
theorem c6_header_normalizer :
    (∀ (d1 d2 d3 d4 junk : List Char),
      d1 ≠ [] → d2 ≠ [] → d3 ≠ [] → d4 ≠ [] →
      (∀ c ∈ d1, c.isDigit = true) → (∀ c ∈ d2, c.isDigit = true) →
      (∀ c ∈ d3, c.isDigit = true) → (∀ c ∈ d4, c.isDigit = true) →
      normalizeLineChars ('@' :: '@' :: ' ' :: '-' ::
          (d1 ++ ',' :: (d2 ++ ' ' :: '+' :: (d3 ++ ',' :: (d4 ++ ' ' :: '@' :: '@' :: junk)))))
        = '@' :: '@' :: ' ' :: '-' :: d1 ++ ',' :: d2 ++ ' ' :: '+' :: d3 ++
            ',' :: d4 ++ [' ', '@', '@'])
    ∧ (∀ (d1 d2 d3 junk : List Char),
      d1 ≠ [] → d2 ≠ [] → d3 ≠ [] →
      (∀ c ∈ d1, c.isDigit = true) → (∀ c ∈ d2, c.isDigit = true) →
      (∀ c ∈ d3, c.isDigit = true) →
      normalizeLineChars ('@' :: '@' :: ' ' :: '-' ::
          (d1 ++ ',' :: (d2 ++ ' ' :: '+' :: (d3 ++ ' ' :: '@' :: '@' :: junk))))
        = '@' :: '@' :: ' ' :: '-' :: d1 ++ ',' :: d2 ++ ' ' :: '+' :: d3 ++ [' ', '@', '@'])
    ∧ (∀ (l : List Char), l.head? ≠ some '@' → normalizeLineChars l = l)
    ∧ (∀ (s : String), (∀ l ∈ splitNLChars s.data, parseHeaderCore l = none) →
        normalizeText s = s)
    ∧ normalizeText
        "--- a/f\n+++ b/f\n@@ -1,2 +1,2 @@ fn main\n ctx\n-old\n+new @@ -9,9 +9,9 @@ x\n@@ -5,3 +5,2 @@\n ctx2\n--- a/g\n+++ b/g\n@@ -1,1 +1 @@ trail\n-x\n+y\n"
        = "--- a/f\n+++ b/f\n@@ -1,2 +1,2 @@\n ctx\n-old\n+new @@ -9,9 +9,9 @@ x\n@@ -5,3 +5,2 @@\n ctx2\n--- a/g\n+++ b/g\n@@ -1,1 +1 @@\n-x\n+y\n" := by
  refine ⟨?_, ?_, ?_, ?_, by decide⟩
  · intro d1 d2 d3 d4 junk h1 h2 h3 h4 hd1 hd2 hd3 hd4
    have ht1 := takeDigits_append d1
      (',' :: (d2 ++ ' ' :: '+' :: (d3 ++ ',' :: (d4 ++ ' ' :: '@' :: '@' :: junk))))
      hd1 (by intro c h; injection h with h; rw [← h]; decide)
    have ht2 := takeDigits_append d2
      (' ' :: '+' :: (d3 ++ ',' :: (d4 ++ ' ' :: '@' :: '@' :: junk)))
      hd2 (by intro c h; injection h with h; rw [← h]; decide)
    have ht3 := takeDigits_append d3
      (',' :: (d4 ++ ' ' :: '@' :: '@' :: junk))
      hd3 (by intro c h; injection h with h; rw [← h]; decide)
    have ht4 := takeDigits_append d4
      (' ' :: '@' :: '@' :: junk)
      hd4 (by intro c h; injection h with h; rw [← h]; decide)
    simp only [normalizeLineChars, parseHeaderCore]
    rw [ht1]
    simp only [h1, if_false]
    rw [ht2]
    simp only [h2, if_false]
    rw [ht3]
    simp only [h3, if_false]
    rw [ht4]
    simp only [h4, if_false]
    rfl
  · intro d1 d2 d3 junk h1 h2 h3 hd1 hd2 hd3
    have ht1 := takeDigits_append d1
      (',' :: (d2 ++ ' ' :: '+' :: (d3 ++ ' ' :: '@' :: '@' :: junk)))
      hd1 (by intro c h; injection h with h; rw [← h]; decide)
    have ht2 := takeDigits_append d2
      (' ' :: '+' :: (d3 ++ ' ' :: '@' :: '@' :: junk))
      hd2 (by intro c h; injection h with h; rw [← h]; decide)
    have ht3 := takeDigits_append d3
      (' ' :: '@' :: '@' :: junk)
      hd3 (by intro c h; injection h with h; rw [← h]; decide)
    simp only [normalizeLineChars, parseHeaderCore]
    rw [ht1]
    simp only [h1, if_false]
    rw [ht2]
    simp only [h2, if_false]
    rw [ht3]
    simp only [h3, if_false]
    rfl
  · intro l hl
    cases l with
    | nil => rfl
    | cons c t =>
      have hnone : parseHeaderCore (c :: t) = none := by
        unfold parseHeaderCore
        split
        · rename_i r0 heq
          injection heq with hch _
          exact absurd (by rw [hch]; rfl) hl
        · rfl
      simp [normalizeLineChars, hnone]
  · intro s h
    have h1 : normalizeText s = ⟨joinWithNL (normalizeParts (splitNLChars s.data))⟩ := rfl
    rw [h1, normalizeParts_id _ h, joinWithNL_splitNL]

theorem c6_header_normalizer_witness :
    ((['1'] : List Char) ≠ [] ∧ (∀ c ∈ (['1'] : List Char), c.isDigit = true)
      ∧ normalizeLineChars ('@' :: '@' :: ' ' :: '-' ::
          (['1'] ++ ',' :: (['2'] ++ ' ' :: '+' :: (['3'] ++ ',' :: (['4'] ++ ' ' :: '@' :: '@' ::
            [' ', 'f', 'n']))))) =
          '@' :: '@' :: ' ' :: '-' :: ['1'] ++ ',' :: ['2'] ++ ' ' :: '+' :: ['3'] ++
            ',' :: ['4'] ++ [' ', '@', '@'])
    ∧ normalizeLineChars ('@' :: '@' :: ' ' :: '-' ::
        (['1'] ++ ',' :: (['2'] ++ ' ' :: '+' :: (['3'] ++ ' ' :: '@' :: '@' :: [' ', 'x'])))) =
        '@' :: '@' :: ' ' :: '-' :: ['1'] ++ ',' :: ['2'] ++ ' ' :: '+' :: ['3'] ++ [' ', '@', '@']
    ∧ (([' ', '@', '@', ' ', '-', '1', ',', '1', ' ', '+', '1', ',', '1', ' ', '@', '@'] :
          List Char).head? ≠ some '@'
      ∧ normalizeLineChars
          [' ', '@', '@', ' ', '-', '1', ',', '1', ' ', '+', '1', ',', '1', ' ', '@', '@'] =
          [' ', '@', '@', ' ', '-', '1', ',', '1', ' ', '+', '1', ',', '1', ' ', '@', '@'])
    ∧ ((∀ l ∈ splitNLChars ("+x\n-y").data, parseHeaderCore l = none)
      ∧ normalizeText "+x\n-y" = "+x\n-y") := by
  refine ⟨⟨by decide, by decide, ?_⟩, ?_, ⟨by decide, ?_⟩, ⟨by decide, ?_⟩⟩
  · exact c6_header_normalizer.1 ['1'] ['2'] ['3'] ['4'] [' ', 'f', 'n']
      (by decide) (by decide) (by decide) (by decide)
      (by decide) (by decide) (by decide) (by decide)
  · exact c6_header_normalizer.2.1 ['1'] ['2'] ['3'] [' ', 'x']
      (by decide) (by decide) (by decide) (by decide) (by decide) (by decide)
  · exact c6_header_normalizer.2.2.1 _ (by decide)
  · exact c6_header_normalizer.2.2.2.1 "+x\n-y" (by decide)

end CargoPatch
